import Mathlib

/-!
# Verification of the trend-search aggregation core

A shallow embedding, in Lean 4, of the keyword/trend aggregation logic of the
`trend-search-youtube` repository, together with theorems settling the frozen
claims about its specification.

Conventions used throughout:

* Python strings are embedded as `List Char` (`"…".data` for literals).
* Fallible code (a Python expression that may raise) is embedded in `Option`
  or `Except`; `none`/`.error` marks the raising path.
* Python `float` arithmetic is embedded over `Rat`; the weights appearing in
  the sources (`0.1`, `1.2`, …) are exact decimal literals, kept as exact
  rationals.
* Python dictionaries (insertion-ordered) are embedded as association lists
  updated in place, with new keys appended at the end.
-/

namespace TrendSearch

/-! ## Character and digit helpers -/

/-- The decimal digit character for `d` (defined by cases so that facts about
concrete digits are provable by `decide`; `d ≥ 9` is clamped, matching no use
site: every caller passes `d < 10`). -/
def digitChar : Nat → Char
  | 0 => '0'
  | 1 => '1'
  | 2 => '2'
  | 3 => '3'
  | 4 => '4'
  | 5 => '5'
  | 6 => '6'
  | 7 => '7'
  | 8 => '8'
  | _ => '9'

/-- Numeric value of a digit character. -/
def digitVal (c : Char) : Nat := c.toNat - 48

/-- Decimal digits of `n`, most significant first, pushed onto `acc`.  The
`fuel` argument bounds the recursion depth structurally (any `fuel > n`
computes all digits, see the lemmas below), keeping the definition
kernel-reducible. -/
def natDigitsCore : Nat → Nat → List Char → List Char
  | 0, _, acc => acc
  | fuel + 1, n, acc =>
    if n = 0 then acc else natDigitsCore fuel (n / 10) (digitChar (n % 10) :: acc)

/-- Decimal rendering of a natural number (Python `str(n)` / `f"{n}"`). -/
def natDigits (n : Nat) : List Char :=
  if n = 0 then ['0'] else natDigitsCore (n + 1) n []

/-- Fold computing the numeric value of a digit string. -/
def digitsVal (l : List Char) : Nat :=
  l.foldl (fun a c => a * 10 + digitVal c) 0

/-- Python `int(s)` restricted to unsigned decimal numerals: `some` value on a
nonempty all-digit string, `none` (the raising path) otherwise. -/
def parseNat? (l : List Char) : Option Nat :=
  if l ≠ [] ∧ l.all Char.isDigit then some (digitsVal l) else Option.none

/-- Python `int(s)` on an optionally signed decimal numeral; `none` is the
raising path (exotic syntax like underscores or surrounding whitespace is not
modeled: no claim depends on which of those strings succeed). -/
def parseIntLit? (l : List Char) : Option Int :=
  match l with
  | '-' :: rest => (parseNat? rest).map (fun n => -(n : Int))
  | '+' :: rest => (parseNat? rest).map (fun n => (n : Int))
  | _ => (parseNat? l).map (fun n => (n : Int))

/-- Python `str.split(sep)` for a one-character separator. -/
def splitOnChar (sep : Char) : List Char → List (List Char)
  | [] => [[]]
  | c :: rest =>
    match splitOnChar sep rest with
    | [] => [[c]]
    | h :: t => if c = sep then [] :: h :: t else (c :: h) :: t

/-- Python slice `s[:k]`: a negative bound counts from the end, clamped at 0. -/
def pySliceTo (s : List Char) (k : Int) : List Char :=
  if 0 ≤ k then s.take k.toNat else s.take (s.length - (-k).toNat)

/-! ### Lemmas about the digit helpers -/

theorem digitChar_isDigit {d : Nat} (h : d < 10) : (digitChar d).isDigit = true := by
  interval_cases d <;> decide

theorem digitVal_digitChar {d : Nat} (h : d < 10) : digitVal (digitChar d) = d := by
  interval_cases d <;> decide

theorem natDigitsCore_succ (fuel n : Nat) (acc : List Char) :
    natDigitsCore (fuel + 1) n acc =
      if n = 0 then acc else natDigitsCore fuel (n / 10) (digitChar (n % 10) :: acc) := rfl

theorem natDigitsCore_append (n : Nat) :
    ∀ fuel, n < fuel → ∀ acc : List Char,
      natDigitsCore fuel n acc = natDigitsCore fuel n [] ++ acc := by
  induction n using Nat.strong_induction_on with
  | _ n ih =>
    intro fuel hfuel acc
    cases fuel with
    | zero => omega
    | succ f =>
      rw [natDigitsCore_succ, natDigitsCore_succ]
      by_cases h : n = 0
      · simp [h]
      · have hlt : n / 10 < n := Nat.div_lt_self (Nat.pos_of_ne_zero h) (by norm_num)
        have hf : n / 10 < f := by omega
        rw [if_neg h, if_neg h, ih _ hlt f hf, ih _ hlt f hf [digitChar (n % 10)]]
        simp

theorem natDigitsCore_all_digit (n : Nat) :
    ∀ fuel, n < fuel → ∀ c ∈ natDigitsCore fuel n [], c.isDigit = true := by
  induction n using Nat.strong_induction_on with
  | _ n ih =>
    intro fuel hfuel c hc
    cases fuel with
    | zero => omega
    | succ f =>
      rw [natDigitsCore_succ] at hc
      by_cases h : n = 0
      · simp [h] at hc
      · have hlt : n / 10 < n := Nat.div_lt_self (Nat.pos_of_ne_zero h) (by norm_num)
        have hf : n / 10 < f := by omega
        rw [if_neg h, natDigitsCore_append _ f hf] at hc
        rcases List.mem_append.1 hc with h1 | h1
        · exact ih _ hlt f hf c h1
        · rcases List.mem_singleton.1 h1 with rfl
          exact digitChar_isDigit (Nat.mod_lt _ (by norm_num))

theorem natDigits_all_digit (n : Nat) : ∀ c ∈ natDigits n, c.isDigit = true := by
  intro c hc
  unfold natDigits at hc
  by_cases h : n = 0
  · simp [h] at hc; subst hc; decide
  · simp only [h, if_false] at hc
    exact natDigitsCore_all_digit n (n + 1) (Nat.lt_succ_self n) c hc

theorem natDigitsCore_ne_nil {n fuel : Nat} (h : n ≠ 0) (hfuel : n < fuel) :
    natDigitsCore fuel n [] ≠ [] := by
  cases fuel with
  | zero => omega
  | succ f =>
    have hlt : n / 10 < n := Nat.div_lt_self (Nat.pos_of_ne_zero h) (by norm_num)
    have hf : n / 10 < f := by omega
    rw [natDigitsCore_succ, if_neg h, natDigitsCore_append _ f hf]
    simp

theorem natDigits_ne_nil (n : Nat) : natDigits n ≠ [] := by
  unfold natDigits
  by_cases h : n = 0
  · simp [h]
  · simp only [h, if_false]
    exact natDigitsCore_ne_nil h (Nat.lt_succ_self n)

theorem foldl_natDigitsCore (n : Nat) :
    ∀ fuel, n < fuel → ∀ a : Nat,
      List.foldl (fun a c => a * 10 + digitVal c) a (natDigitsCore fuel n []) =
        a * 10 ^ (natDigitsCore fuel n []).length + n := by
  induction n using Nat.strong_induction_on with
  | _ n ih =>
    intro fuel hfuel a
    cases fuel with
    | zero => omega
    | succ f =>
      rw [natDigitsCore_succ]
      by_cases h : n = 0
      · simp [h]
      · have hlt : n / 10 < n := Nat.div_lt_self (Nat.pos_of_ne_zero h) (by norm_num)
        have hf : n / 10 < f := by omega
        rw [if_neg h, natDigitsCore_append _ f hf]
        rw [List.foldl_append, List.length_append]
        rw [ih _ hlt f hf]
        simp only [List.foldl_cons, List.foldl_nil, List.length_singleton]
        rw [digitVal_digitChar (Nat.mod_lt _ (by norm_num))]
        rw [pow_succ]
        have hmod : n / 10 * 10 + n % 10 = n := by omega
        calc (a * 10 ^ (natDigitsCore f (n / 10) []).length + n / 10) * 10 + n % 10
            = a * (10 ^ (natDigitsCore f (n / 10) []).length * 10) + (n / 10 * 10 + n % 10) := by
              ring
          _ = a * (10 ^ (natDigitsCore f (n / 10) []).length * 10) + n := by rw [hmod]

theorem digitsVal_natDigits (n : Nat) : digitsVal (natDigits n) = n := by
  unfold natDigits digitsVal
  by_cases h : n = 0
  · simp [h]; decide
  · simp only [h, if_false]
    rw [foldl_natDigitsCore n (n + 1) (Nat.lt_succ_self n) 0]
    simp

theorem parseNat?_natDigits (n : Nat) : parseNat? (natDigits n) = some n := by
  unfold parseNat?
  rw [if_pos]
  · rw [digitsVal_natDigits]
  · exact ⟨natDigits_ne_nil n, List.all_eq_true.2 fun c hc => natDigits_all_digit n c hc⟩

/-- A digit character is distinct from any non-digit character. -/
theorem isDigit_ne {c x : Char} (hc : c.isDigit = true) (hx : x.isDigit = false) :
    c ≠ x := by
  intro h
  rw [h, hx] at hc
  exact Bool.noConfusion hc

/-! ### Lemmas about `splitOnChar` -/

theorem splitOnChar_cons (sep c : Char) (rest : List Char) :
    splitOnChar sep (c :: rest) =
      match splitOnChar sep rest with
      | [] => [[c]]
      | h :: t => if c = sep then [] :: h :: t else (c :: h) :: t := rfl

theorem splitOnChar_ne_nil (sep : Char) (l : List Char) : splitOnChar sep l ≠ [] := by
  cases l with
  | nil => simp [splitOnChar]
  | cons c rest =>
    rw [splitOnChar_cons]
    cases h : splitOnChar sep rest with
    | nil => simp
    | cons a t =>
      by_cases hc : c = sep <;> simp [hc]

theorem splitOnChar_not_mem {sep : Char} {l : List Char} (h : sep ∉ l) :
    splitOnChar sep l = [l] := by
  induction l with
  | nil => rfl
  | cons c rest ih =>
    have hcs : c ≠ sep := fun hc => h (hc ▸ List.mem_cons_self c rest)
    have hrest : sep ∉ rest := fun hr => h (List.mem_cons_of_mem c hr)
    rw [splitOnChar_cons, ih hrest]
    simp [hcs]

theorem splitOnChar_append {sep : Char} {a : List Char} (b : List Char) (h : sep ∉ a) :
    splitOnChar sep (a ++ sep :: b) = a :: splitOnChar sep b := by
  induction a with
  | nil =>
    simp only [List.nil_append]
    rw [splitOnChar_cons]
    cases hsb : splitOnChar sep b with
    | nil => exact absurd hsb (splitOnChar_ne_nil sep b)
    | cons x t => simp [← hsb]
  | cons c rest ih =>
    have hcs : c ≠ sep := fun hc => h (hc ▸ List.mem_cons_self c rest)
    have hrest : sep ∉ rest := fun hr => h (List.mem_cons_of_mem c hr)
    simp only [List.cons_append]
    rw [splitOnChar_cons, ih hrest]
    simp [hcs]

/-! ## `parse_duration` (base_service.py, claim C7) -/

/-- Python `duration_str.replace("PT", "")`: remove every left-to-right,
non-overlapping occurrence of the two-character pattern `PT`. -/
def replacePT : List Char → List Char
  | [] => []
  | [c] => [c]
  | c1 :: c2 :: rest =>
    if c1 = 'P' ∧ c2 = 'T' then replacePT rest
    else c1 :: replacePT (c2 :: rest)

/-- Python format `f"{n:02d}"` for a natural number: zero-pad to width 2. -/
def pad2 (n : Nat) : List Char :=
  if n < 10 then '0' :: natDigits n else natDigits n

/-- `s.split(sep)[0]`. -/
def splitFirst (sep : Char) (l : List Char) : List Char :=
  (splitOnChar sep l).headD []

/-- `s.split(sep)[1]` (every caller guards on `sep ∈ l`, which makes the index
in range, so the default is never reached). -/
def splitSecond (sep : Char) (l : List Char) : List Char :=
  (splitOnChar sep l).getD 1 []

/-- The rendering `parse_duration` produces from parsed components — the
source's final f-strings: `H:MM:SS` only when the parsed hour count is
positive (`if hours > 0`), `M:SS` otherwise. -/
def renderDuration (hours minutes seconds : Nat) : List Char :=
  if hours > 0 then natDigits hours ++ ':' :: (pad2 minutes ++ ':' :: pad2 seconds)
  else natDigits minutes ++ ':' :: pad2 seconds

/-- One `if "X" in duration: value = int(duration.split("X")[0]); duration =
duration.split("X")[1]` step of `parse_duration` (value defaults to 0). -/
def durStage (marker : Char) (d : List Char) : Option (Nat × List Char) :=
  if marker ∈ d then
    (parseNat? (splitFirst marker d)).map (fun v => (v, splitSecond marker d))
  else some (0, d)

/-- `BaseSocialMediaService.parse_duration`: strip `PT`, peel the optional
`H`, `M` and `S` components, and render `H:MM:SS` when the parsed hour count
is positive, `M:SS` otherwise.  `int()` is modeled by `parseNat?`, whose
raising path makes the whole result `none`; an empty input returns the empty
string. -/
def parse_duration (duration_str : List Char) : Option (List Char) :=
  if duration_str = [] then some [] else
  (durStage 'H' (replacePT duration_str)).bind fun p1 =>
  (durStage 'M' p1.2).bind fun p2 =>
  (if 'S' ∈ p2.2 then parseNat? (splitFirst 'S' p2.2) else some 0).map fun seconds =>
  renderDuration p1.1 p2.1 seconds

/-- One optional component of a `PTxHxMxS`-style duration string. -/
def durComponent (o : Option Nat) (marker : Char) : List Char :=
  match o with
  | some n => natDigits n ++ [marker]
  | Option.none => []

/-- A `PTxHxMxS`-style duration string, each component optional. -/
def mkDuration (oh om os : Option Nat) : List Char :=
  'P' :: 'T' :: (durComponent oh 'H' ++ (durComponent om 'M' ++ durComponent os 'S'))

/-- C7 counterexample: `"PT0H1M2S"` has an hours component present (`0H`), yet
`parse_duration` renders `"1:02"` (the `M:SS` form), not `"0:01:02"`: the code
branches on `hours > 0`, not on the presence of the hours component. -/
theorem parse_duration_zero_hours_cx :
    mkDuration (some 0) (some 1) (some 2) = "PT0H1M2S".data ∧
      parse_duration ("PT0H1M2S".data) = some ("1:02".data) ∧
      ("1:02".data : List Char) ≠ "0:01:02".data := by
  refine ⟨by decide, by decide, by decide⟩

/-! ### Lemmas leading to the amended C7 theorem -/

theorem replacePT_cons_cons (c1 c2 : Char) (rest : List Char) :
    replacePT (c1 :: c2 :: rest) =
      if c1 = 'P' ∧ c2 = 'T' then replacePT rest else c1 :: replacePT (c2 :: rest) := rfl

theorem replacePT_not_mem : ∀ l : List Char, 'P' ∉ l → replacePT l = l := by
  intro l
  induction l with
  | nil => intro _; rfl
  | cons c rest ih =>
    intro h
    cases rest with
    | nil => rfl
    | cons c2 r =>
      have hc : c ≠ 'P' := fun hc => h (hc ▸ List.mem_cons_self c (c2 :: r))
      rw [replacePT_cons_cons, if_neg (fun hpt => hc hpt.1),
        ih (fun hm => h (List.mem_cons_of_mem c hm))]

theorem not_mem_natDigits {x : Char} (hx : x.isDigit = false) (n : Nat) :
    x ∉ natDigits n := by
  intro hm
  have hd := natDigits_all_digit n x hm
  rw [hx] at hd
  exact Bool.noConfusion hd

theorem not_mem_durComponent {x : Char} (o : Option Nat) (marker : Char)
    (hx : x.isDigit = false) (hm : x ≠ marker) : x ∉ durComponent o marker := by
  cases o with
  | none => simp [durComponent]
  | some n =>
    simp only [durComponent, List.mem_append, List.mem_singleton]
    rintro (hmem | rfl)
    · exact not_mem_natDigits hx n hmem
    · exact hm rfl

theorem not_mem_msBody {x : Char} (om os : Option Nat) (hx : x.isDigit = false)
    (hm : x ≠ 'M') (hs : x ≠ 'S') :
    x ∉ durComponent om 'M' ++ durComponent os 'S' := by
  rw [List.mem_append]
  rintro (h | h)
  · exact not_mem_durComponent om 'M' hx hm h
  · exact not_mem_durComponent os 'S' hx hs h

theorem replacePT_mkDuration (oh om os : Option Nat) :
    replacePT (mkDuration oh om os) =
      durComponent oh 'H' ++ (durComponent om 'M' ++ durComponent os 'S') := by
  unfold mkDuration
  rw [replacePT_cons_cons, if_pos ⟨rfl, rfl⟩]
  apply replacePT_not_mem
  rw [List.mem_append]
  rintro (h | h)
  · exact not_mem_durComponent oh 'H' (by decide) (by decide) h
  · exact not_mem_msBody om os (by decide) (by decide) (by decide) h

theorem splitFirst_append {sep : Char} {a : List Char} (b : List Char) (ha : sep ∉ a) :
    splitFirst sep (a ++ sep :: b) = a := by
  unfold splitFirst
  rw [splitOnChar_append b ha]
  rfl

theorem splitSecond_append {sep : Char} {a : List Char} (b : List Char) (ha : sep ∉ a)
    (hb : sep ∉ b) : splitSecond sep (a ++ sep :: b) = b := by
  unfold splitSecond
  rw [splitOnChar_append b ha, splitOnChar_not_mem hb]
  rfl

theorem durStage_found {marker : Char} {a : List Char} (b : List Char)
    (ha : marker ∉ a) (hb : marker ∉ b) {n : Nat} (hparse : parseNat? a = some n) :
    durStage marker (a ++ marker :: b) = some (n, b) := by
  unfold durStage
  rw [if_pos (by simp), splitFirst_append b ha, splitSecond_append b ha hb, hparse]
  rfl

theorem durStage_not_found {marker : Char} {d : List Char} (h : marker ∉ d) :
    durStage marker d = some (0, d) := by
  unfold durStage
  rw [if_neg h]

theorem durStage_H (oh om os : Option Nat) :
    durStage 'H' (durComponent oh 'H' ++ (durComponent om 'M' ++ durComponent os 'S')) =
      some (oh.getD 0, durComponent om 'M' ++ durComponent os 'S') := by
  cases oh with
  | none =>
    rw [show durComponent Option.none 'H' = [] from rfl, List.nil_append]
    rw [durStage_not_found (not_mem_msBody om os (by decide) (by decide) (by decide))]
    rfl
  | some h =>
    rw [show durComponent (some h) 'H' = natDigits h ++ ['H'] from rfl, List.append_assoc,
      List.singleton_append]
    rw [durStage_found _ (not_mem_natDigits (by decide) h)
      (not_mem_msBody om os (by decide) (by decide) (by decide)) (parseNat?_natDigits h)]
    rfl

theorem durStage_M (om os : Option Nat) :
    durStage 'M' (durComponent om 'M' ++ durComponent os 'S') =
      some (om.getD 0, durComponent os 'S') := by
  cases om with
  | none =>
    rw [show durComponent Option.none 'M' = [] from rfl, List.nil_append]
    rw [durStage_not_found (not_mem_durComponent os 'S' (by decide) (by decide))]
    rfl
  | some m =>
    rw [show durComponent (some m) 'M' = natDigits m ++ ['M'] from rfl, List.append_assoc,
      List.singleton_append]
    rw [durStage_found _ (not_mem_natDigits (by decide) m)
      (not_mem_durComponent os 'S' (by decide) (by decide)) (parseNat?_natDigits m)]
    rfl

theorem sStage (os : Option Nat) :
    (if 'S' ∈ durComponent os 'S' then parseNat? (splitFirst 'S' (durComponent os 'S'))
      else some 0) = some (os.getD 0) := by
  cases os with
  | none => rw [show durComponent Option.none 'S' = [] from rfl]; simp
  | some s =>
    rw [show durComponent (some s) 'S' = natDigits s ++ ['S'] from rfl]
    rw [show (natDigits s ++ ['S'] : List Char) = natDigits s ++ 'S' :: [] from rfl]
    rw [if_pos (by simp), splitFirst_append [] (not_mem_natDigits (by decide) s),
      parseNat?_natDigits]
    rfl

/-- C7 (amended): for every `PTxHxMxS`-style duration string (hours, minutes
and seconds each optional), `parse_duration` returns the `H:MM:SS` rendering
exactly when the parsed hour count is **positive** — not merely present: a
present-but-zero `…0H…` component renders in the `M:SS` form — with minutes
and seconds zero-padded to width two, and it returns the empty string (not
`none`) for an empty input. -/
theorem parse_duration_spec (oh om os : Option Nat) :
    parse_duration [] = some [] ∧
    parse_duration (mkDuration oh om os) =
      some (renderDuration (oh.getD 0) (om.getD 0) (os.getD 0)) := by
  refine ⟨rfl, ?_⟩
  have hne : mkDuration oh om os ≠ [] := by simp [mkDuration]
  unfold parse_duration
  rw [if_neg hne, replacePT_mkDuration, durStage_H, Option.some_bind, durStage_M,
    Option.some_bind, sStage, Option.map_some']

/-! ## `truncate_text` (base_service.py, claim C8) -/

/-- `BaseSocialMediaService.truncate_text`: empty text maps to `""`; text within
the limit is returned unchanged; longer text is cut to `text[:max_length-3]`
with `"..."` appended.  The slice bound is a Python slice (negative values count
from the end). -/
def truncate_text (text : List Char) (max_length : Int) : List Char :=
  if text = [] then []
  else if (text.length : Int) ≤ max_length then text
  else pySliceTo text (max_length - 3) ++ ['.', '.', '.']

/-- C8 counterexample: with `max_length = 2` (< 3) the Python slice
`text[:-1]` keeps all but one character, so `truncate_text "hello" 2` is
`"hell..."`, of length 7 — the bound `len(output) ≤ max_length` fails. -/
theorem truncate_text_bound_cx :
    truncate_text ("hello".data) 2 = "hell...".data ∧
      ¬ ((truncate_text ("hello".data) 2).length : Int) ≤ 2 := by
  constructor
  · rfl
  · decide

/-- C8 (amended: for `max_length ≥ 3`): text within the limit is returned
unchanged; longer text becomes the first `max_length - 3` characters followed
by the three-character ellipsis marker, and the output length never exceeds
`max_length`. -/
theorem truncate_text_spec (text : List Char) (max_length : Int) (h3 : 3 ≤ max_length) :
    (((text.length : Int) ≤ max_length) → truncate_text text max_length = text) ∧
    (max_length < (text.length : Int) →
      truncate_text text max_length =
        text.take (max_length - 3).toNat ++ ['.', '.', '.'] ∧
      ((truncate_text text max_length).length : Int) ≤ max_length) := by
  constructor
  · intro hle
    unfold truncate_text
    by_cases he : text = []
    · simp [he]
    · simp [he, hle]
  · intro hgt
    have he : text ≠ [] := by
      intro h
      rw [h] at hgt
      simp at hgt
      omega
    have hnle : ¬ ((text.length : Int) ≤ max_length) := not_le.2 hgt
    unfold truncate_text pySliceTo
    rw [if_neg he, if_neg hnle, if_pos (by omega : (0:Int) ≤ max_length - 3)]
    refine ⟨rfl, ?_⟩
    have htake : (text.take (max_length - 3).toNat).length = (max_length - 3).toNat := by
      rw [List.length_take]
      have : (max_length - 3).toNat ≤ text.length := by omega
      omega
    rw [List.length_append, htake]
    simp only [List.length_cons, List.length_nil]
    omega

/-- Witness for `truncate_text_spec` at `text = "abcdef"`, `max_length = 5`
(the repository's own unit-test case: result `"ab..."`). -/
theorem truncate_text_spec_witness :
    (3:Int) ≤ 5 ∧ truncate_text ("abcdef".data) 5 = "ab...".data :=
  ⟨by norm_num,
    by
      have h := (truncate_text_spec ("abcdef".data) 5 (by norm_num)).2 (by decide)
      rw [h.1]
      rfl⟩

/-! ## `safe_int` / `safe_float` (base_service.py, claim C9) -/

/-- A dynamically typed Python value, as far as the numeric conversion helpers
observe one. -/
inductive PyVal where
  | pynone
  | pyint (n : Int)
  | pyfloat (q : Rat)
  | pystr (s : List Char)
deriving DecidableEq

/-- Truncation toward zero — Python `int(float)`. -/
def ratTrunc (q : Rat) : Int := if q < 0 then ⌈q⌉ else ⌊q⌋

/-- Python `float(s)` on `[sign] digits [. digits]` decimal literals; `none` is
the raising path (exponents, `inf`, `nan` are not modeled: no claim depends on
which strings succeed). -/
def parseFloatLit? (l : List Char) : Option Rat :=
  let core : List Char → Option Rat := fun m =>
    match splitOnChar '.' m with
    | [ip] => if ip ≠ [] ∧ ip.all Char.isDigit then some (digitsVal ip : Rat) else Option.none
    | [ip, fp] =>
        if (ip ≠ [] ∨ fp ≠ []) ∧ ip.all Char.isDigit ∧ fp.all Char.isDigit then
          some ((digitsVal ip : Rat) + (digitsVal fp : Rat) / ((10 ^ fp.length : Nat) : Rat))
        else Option.none
    | _ => Option.none
  match l with
  | '-' :: rest => (core rest).map (fun q => -q)
  | '+' :: rest => core rest
  | _ => core l

/-- The bare Python `int(value)` cast; `.error` carries the exception class
name (`ValueError`/`TypeError`) of the raising path. -/
def pyIntCast : PyVal → Except (List Char) Int
  | .pynone => .error ("TypeError".data)
  | .pyint n => .ok n
  | .pyfloat q => .ok (ratTrunc q)
  | .pystr s =>
    match parseIntLit? s with
    | some n => .ok n
    | Option.none => .error ("ValueError".data)

/-- The bare Python `float(value)` cast. -/
def pyFloatCast : PyVal → Except (List Char) Rat
  | .pynone => .error ("TypeError".data)
  | .pyint n => .ok (n : Rat)
  | .pyfloat q => .ok q
  | .pystr s =>
    match parseFloatLit? s with
    | some q => .ok q
    | Option.none => .error ("ValueError".data)

/-- `BaseSocialMediaService.safe_int`: `None` maps to `None`, a raising cast is
caught and maps to `None`, otherwise the converted integer is returned. -/
def safe_int (value : PyVal) : Option Int :=
  if value = .pynone then Option.none
  else
    match pyIntCast value with
    | .ok n => some n
    | .error _ => Option.none

/-- `BaseSocialMediaService.safe_float`. -/
def safe_float (value : PyVal) : Option Rat :=
  if value = .pynone then Option.none
  else
    match pyFloatCast value with
    | .ok q => some q
    | .error _ => Option.none

/-- C9: the safe numeric conversion primitives are total (never raise): a
`None` input yields `None`; an input whose bare cast raises yields `None`; and
every `some` result is exactly the successfully converted number. -/
theorem safe_numeric_conversion_total (value : PyVal) :
    (value = PyVal.pynone → safe_int value = Option.none ∧ safe_float value = Option.none) ∧
    (∀ e, pyIntCast value = Except.error e → safe_int value = Option.none) ∧
    (∀ n, safe_int value = some n → pyIntCast value = Except.ok n) ∧
    (∀ e, pyFloatCast value = Except.error e → safe_float value = Option.none) ∧
    (∀ q, safe_float value = some q → pyFloatCast value = Except.ok q) := by
  refine ⟨fun h => ?_, fun e he => ?_, fun n hn => ?_, fun e he => ?_, fun q hq => ?_⟩
  · subst h; exact ⟨rfl, rfl⟩
  · unfold safe_int
    by_cases h : value = .pynone
    · simp [h]
    · simp [h, he]
  · unfold safe_int at hn
    by_cases h : value = .pynone
    · simp [h] at hn
    · rw [if_neg h] at hn
      cases hc : pyIntCast value with
      | ok m =>
        rw [hc] at hn
        simp only [Option.some.injEq] at hn
        subst hn
        rfl
      | error e => rw [hc] at hn; simp at hn
  · unfold safe_float
    by_cases h : value = .pynone
    · simp [h]
    · simp [h, he]
  · unfold safe_float at hq
    by_cases h : value = .pynone
    · simp [h] at hq
    · rw [if_neg h] at hq
      cases hc : pyFloatCast value with
      | ok m =>
        rw [hc] at hq
        simp only [Option.some.injEq] at hq
        subst hq
        rfl
      | error e => rw [hc] at hq; simp at hq

/-- Witness for `safe_numeric_conversion_total`: the non-numeric string
`"abc"` makes the bare cast raise and `safe_int` return `None`. -/
theorem safe_numeric_conversion_total_witness :
    pyIntCast (PyVal.pystr ("abc".data)) = Except.error ("ValueError".data) ∧
      safe_int (PyVal.pystr ("abc".data)) = Option.none :=
  ⟨by rfl,
    (safe_numeric_conversion_total (PyVal.pystr ("abc".data))).2.1 ("ValueError".data) (by rfl)⟩

/-! ## Keyword extraction (main.py, claim C10) -/

/-- Python `str.lower()` on one character, restricted to the ASCII case map
(identity on Hangul and on all other characters; the rare non-ASCII cased
letters CPython also lowers are outside the token class either way). -/
def lowerChar (c : Char) : Char :=
  if 'A' ≤ c ∧ c ≤ 'Z' then Char.ofNat (c.toNat + 32) else c

/-- Python `str.lower()` over a whole string. -/
def lowerStr (l : List Char) : List Char := l.map lowerChar

/-- The token class `[가-힣a-zA-Z0-9]` of the extraction regex in
`extract_keywords_from_text`. -/
def isKeywordChar (c : Char) : Bool :=
  decide (('가' ≤ c ∧ c ≤ '힣') ∨ ('a' ≤ c ∧ c ≤ 'z') ∨ ('A' ≤ c ∧ c ≤ 'Z') ∨
    ('0' ≤ c ∧ c ≤ '9'))

/-- `re.findall(r'[가-힣a-zA-Z0-9]{2,}', text)`: the maximal runs of
token-class characters, keeping those of length ≥ 2.  `fuel` bounds the
recursion structurally (any `fuel ≥ length` computes every run, see
`tokenRuns`). -/
def tokenRunsCore : Nat → List Char → List (List Char)
  | 0, _ => []
  | _ + 1, [] => []
  | fuel + 1, c :: rest =>
    if isKeywordChar c then
      if 2 ≤ ((c :: rest).takeWhile isKeywordChar).length then
        (c :: rest).takeWhile isKeywordChar ::
          tokenRunsCore fuel ((c :: rest).dropWhile isKeywordChar)
      else tokenRunsCore fuel ((c :: rest).dropWhile isKeywordChar)
    else tokenRunsCore fuel rest

/-- The regex matches of `extract_keywords_from_text`. -/
def tokenRuns (l : List Char) : List (List Char) := tokenRunsCore l.length l

/-- The stop-word set of `extract_keywords_from_text` (main.py). -/
def stop_words : List (List Char) :=
  (["the", "and", "or", "but", "in", "on", "at", "to", "for", "of", "with", "by",
    "이", "그", "저", "것", "수", "등", "및", "또는", "그리고", "하지만", "에서",
    "으로", "에게", "를", "을"]).map String.data

/-- Python `kw.startswith('#')` (false on the empty string). -/
def startsWithHash : List Char → Bool
  | c :: _ => c = '#'
  | [] => false

/-- `extract_keywords_from_text` (main.py): falsy text gives `[]`; otherwise
lowercase the text, take the maximal `[가-힣a-zA-Z0-9]` runs of length ≥ 2,
and drop tokens that start with `#` or sit in the stop-word set. -/
def extract_keywords_from_text (text : List Char) : List (List Char) :=
  if text = [] then []
  else (tokenRuns (lowerStr text)).filter
    (fun kw => !(startsWithHash kw) && !(stop_words.contains kw))

/-! ### Lemmas about the extraction -/

theorem char_toNat_ofNat {n : Nat} (h : n.isValidChar) : (Char.ofNat n).toNat = n := by
  rw [Char.ofNat, dif_pos h]
  rfl

theorem char_le_iff_toNat {a b : Char} : a ≤ b ↔ a.toNat ≤ b.toNat := by
  rw [Char.le_def]
  exact ge_iff_le

/-- Lowercasing never produces an ASCII capital letter. -/
theorem lowerChar_not_upper (c : Char) : ¬ ('A' ≤ lowerChar c ∧ lowerChar c ≤ 'Z') := by
  unfold lowerChar
  split_ifs with h
  · rcases h with ⟨h1, h2⟩
    rw [char_le_iff_toNat] at h1 h2
    have hA : ('A' : Char).toNat = 65 := rfl
    have hZ : ('Z' : Char).toNat = 90 := rfl
    rw [hA] at h1
    rw [hZ] at h2
    have hvalid : (c.toNat + 32).isValidChar := by
      constructor
      omega
    rintro ⟨g1, g2⟩
    rw [char_le_iff_toNat, char_toNat_ofNat hvalid] at g2
    rw [hZ] at g2
    omega
  · exact h

theorem tokenRunsCore_cons (fuel : Nat) (c : Char) (rest : List Char) :
    tokenRunsCore (fuel + 1) (c :: rest) =
      if isKeywordChar c then
        if 2 ≤ ((c :: rest).takeWhile isKeywordChar).length then
          (c :: rest).takeWhile isKeywordChar ::
            tokenRunsCore fuel ((c :: rest).dropWhile isKeywordChar)
        else tokenRunsCore fuel ((c :: rest).dropWhile isKeywordChar)
      else tokenRunsCore fuel rest := rfl

/-- Every regex run has length ≥ 2, contains only token-class characters,
and draws its characters from the input. -/
theorem tokenRunsCore_sound (fuel : Nat) :
    ∀ l : List Char, ∀ tk ∈ tokenRunsCore fuel l,
      2 ≤ tk.length ∧ (∀ c ∈ tk, isKeywordChar c = true) ∧ (∀ c ∈ tk, c ∈ l) := by
  induction fuel with
  | zero => intro l tk htk; simp [tokenRunsCore] at htk
  | succ f ih =>
    intro l tk htk
    cases l with
    | nil => simp [tokenRunsCore] at htk
    | cons c rest =>
      rw [tokenRunsCore_cons] at htk
      by_cases hc : isKeywordChar c = true
      · rw [if_pos hc] at htk
        by_cases hlen : 2 ≤ ((c :: rest).takeWhile isKeywordChar).length
        · rw [if_pos hlen] at htk
          rcases List.mem_cons.1 htk with rfl | htk2
          · refine ⟨hlen, fun x hx => List.mem_takeWhile_imp hx, fun x hx => ?_⟩
            exact (List.takeWhile_prefix _).sublist.subset hx
          · obtain ⟨h1, h2, h3⟩ := ih _ tk htk2
            exact ⟨h1, h2, fun x hx =>
              (List.dropWhile_suffix isKeywordChar).sublist.subset (h3 x hx)⟩
        · rw [if_neg hlen] at htk
          obtain ⟨h1, h2, h3⟩ := ih _ tk htk
          exact ⟨h1, h2, fun x hx =>
            (List.dropWhile_suffix isKeywordChar).sublist.subset (h3 x hx)⟩
      · rw [if_neg hc] at htk
        obtain ⟨h1, h2, h3⟩ := ih _ tk htk
        exact ⟨h1, h2, fun x hx => List.mem_cons_of_mem c (h3 x hx)⟩

/-- C10: every keyword the extractor returns is a length ≥ 2 run of Hangul
syllables, lowercase Latin letters, or digits that is not a stop word and
contains no `#`; consequently the `startswith('#')` filter removes nothing
(the extractor equals the same pipeline without it), and the word part of a
hashtag is extracted as an ordinary keyword: `extract_keywords_from_text
"#게임" = ["게임"]`. -/
theorem extract_keywords_shape (text : List Char) :
    (∀ kw ∈ extract_keywords_from_text text,
      2 ≤ kw.length ∧
      (∀ c ∈ kw, ('가' ≤ c ∧ c ≤ '힣') ∨ ('a' ≤ c ∧ c ≤ 'z') ∨ ('0' ≤ c ∧ c ≤ '9')) ∧
      kw ∉ stop_words ∧ '#' ∉ kw) ∧
    extract_keywords_from_text text =
      (if text = [] then [] else
        (tokenRuns (lowerStr text)).filter (fun kw => !(stop_words.contains kw))) ∧
    extract_keywords_from_text ("#게임".data) = ["게임".data] := by
  have hchar : ∀ kw ∈ tokenRuns (lowerStr text), ∀ c ∈ kw,
      ('가' ≤ c ∧ c ≤ '힣') ∨ ('a' ≤ c ∧ c ≤ 'z') ∨ ('0' ≤ c ∧ c ≤ '9') := by
    intro kw hkw c hc
    obtain ⟨_, h2, h3⟩ := tokenRunsCore_sound _ _ kw hkw
    have hklass := of_decide_eq_true (h2 c hc)
    have hmem := h3 c hc
    obtain ⟨c0, _, rfl⟩ := List.mem_map.1 hmem
    rcases hklass with h | h | h | h
    · exact Or.inl h
    · exact Or.inr (Or.inl h)
    · exact absurd h (lowerChar_not_upper c0)
    · exact Or.inr (Or.inr h)
  have hnohash : ∀ kw ∈ tokenRuns (lowerStr text), '#' ∉ kw := by
    intro kw hkw hmem
    rcases hchar kw hkw '#' hmem with h | h | h
    · rcases h with ⟨h1, _⟩
      rw [char_le_iff_toNat] at h1
      revert h1
      decide
    · rcases h with ⟨h1, _⟩
      rw [char_le_iff_toNat] at h1
      revert h1
      decide
    · rcases h with ⟨h1, _⟩
      rw [char_le_iff_toNat] at h1
      revert h1
      decide
  have hhashfalse : ∀ kw ∈ tokenRuns (lowerStr text), startsWithHash kw = false := by
    intro kw hkw
    cases kw with
    | nil => rfl
    | cons c rest =>
      by_cases hc : c = '#'
      · subst hc
        exact absurd (List.mem_cons_self _ _) (hnohash _ hkw)
      · simp [startsWithHash, hc]
  refine ⟨?_, ?_, by decide⟩
  · intro kw hkw
    unfold extract_keywords_from_text at hkw
    by_cases htext : text = []
    · simp [htext] at hkw
    · rw [if_neg htext] at hkw
      have hmem := List.mem_of_mem_filter hkw
      have hfilt := List.of_mem_filter hkw
      rw [Bool.and_eq_true, Bool.not_eq_true'] at hfilt
      obtain ⟨h1, h2, h3⟩ := tokenRunsCore_sound _ _ kw hmem
      refine ⟨h1, hchar kw hmem, ?_, hnohash kw hmem⟩
      intro hstop
      have : stop_words.contains kw = true := List.elem_eq_true_of_mem hstop
      rw [this] at hfilt
      exact Bool.noConfusion hfilt.2
  · unfold extract_keywords_from_text
    by_cases htext : text = []
    · simp [htext]
    · rw [if_neg htext, if_neg htext]
      apply List.filter_congr
      intro kw hkw
      rw [hhashfalse kw hkw]
      rfl

/-- Witness for `extract_keywords_shape`: on the text `"#게임 is fun"` the
returned keywords are `["게임", "fun"]` and the first one has the stated
shape. -/
theorem extract_keywords_shape_witness :
    extract_keywords_from_text ("#게임 is fun".data) = ["게임".data, "is".data, "fun".data] ∧
      ("게임".data ∉ stop_words ∧ '#' ∉ "게임".data) :=
  ⟨by decide,
    (((extract_keywords_shape ("#게임 is fun".data)).1 ("게임".data)
      (by decide)).2.2 : _)⟩

/-! ## Cross-platform trending aggregation (main.py, claims C1, C3, C4) -/

/-- The fields of a trending record that `extract_trending_keywords` reads. -/
structure Trend where
  title : List Char
  description : Option (List Char)
  view_count : Option Int
deriving DecidableEq

/-- `f"{trend.title} {trend.description or ''}"` (both `None` and the empty
string are falsy, so `or ''` is `getD []`). -/
def trendText (t : Trend) : List Char :=
  t.title ++ ' ' :: (t.description.getD [])

/-- Per-keyword accumulator `{"count": …, "total_views": …, "platforms": …}`.
The Python `set` of platform names is embedded as a duplicate-free list; only
its cardinality and membership are observed downstream. -/
structure KwData where
  count : Nat
  total_views : Int
  platforms : List (List Char)
deriving DecidableEq

/-- `platforms.add(platform)`. -/
def addPlatform (p : List Char) (ps : List (List Char)) : List (List Char) :=
  if p ∈ ps then ps else ps ++ [p]

/-- The insertion-ordered dict `keyword_scores`. -/
abbrev ScoreMap := List (List Char × KwData)

/-- One `keyword_scores[keyword]` update: create the entry on first sight
(appended at the end — dict insertion order), then `count += 1`,
`total_views += trend.view_count or 0`, `platforms.add(platform)`. -/
def bumpEntry (platform : List Char) (views : Int) (kw : List Char) :
    ScoreMap → ScoreMap
  | [] => [(kw, ⟨1, views, [platform]⟩)]
  | (k, d) :: rest =>
    if k = kw then
      (k, ⟨d.count + 1, d.total_views + views, addPlatform platform d.platforms⟩) :: rest
    else (k, d) :: bumpEntry platform views kw rest

/-- Process one record of a platform's batch: one bump per extracted
keyword occurrence. -/
def processRecord (platform : List Char) (t : Trend) (m : ScoreMap) : ScoreMap :=
  (extract_keywords_from_text (trendText t)).foldl
    (fun m kw => bumpEntry platform (t.view_count.getD 0) kw m) m

/-- Process one platform's batch of records. -/
def processBatch (platform : List Char) (ts : List Trend) (m : ScoreMap) : ScoreMap :=
  ts.foldl (fun m t => processRecord platform t m) m

/-- One output row of `extract_trending_keywords`. -/
structure RankedKeyword where
  keyword : List Char
  trending_score : Int
  count : Nat
  total_views : Int
  platforms : List (List Char)
  platform_count : Nat
deriving DecidableEq

/-- `(data["count"] * 10) + (data["total_views"] // 1000) + (len(platforms) * 5)`
— Python `//` is floor division, `Int.fdiv`. -/
def trendingScoreOf (d : KwData) : Int :=
  (d.count : Int) * 10 + d.total_views.fdiv 1000 + (d.platforms.length : Int) * 5

/-- The order `trending_keywords.sort(key=lambda x: x["trending_score"],
reverse=True)` sorts by.  Python's sort is stable and a stable sort is
determined uniquely by its key, so Mathlib's insertion sort under this
relation is a faithful model. -/
def scoreRel (a b : RankedKeyword) : Prop :=
  b.trending_score ≤ a.trending_score

instance : DecidableRel scoreRel :=
  fun a b => inferInstanceAs (Decidable (b.trending_score ≤ a.trending_score))

instance : IsTotal RankedKeyword scoreRel :=
  ⟨fun a b => le_total b.trending_score a.trending_score⟩

instance : IsTrans RankedKeyword scoreRel :=
  ⟨fun _ _ _ h1 h2 => le_trans h2 h1⟩

/-- The accumulated `keyword_scores` dict: the YouTube, TikTok and Instagram
batches processed in that order. -/
def aggregateScores (youtube_trends tiktok_trends instagram_trends : List Trend) : ScoreMap :=
  processBatch ("instagram".data) instagram_trends
    (processBatch ("tiktok".data) tiktok_trends
      (processBatch ("youtube".data) youtube_trends []))

/-- The `trending_keywords` rows before the final sort, in dict insertion
order (= first-seen keyword order). -/
def preRankedRows (youtube_trends tiktok_trends instagram_trends : List Trend) :
    List RankedKeyword :=
  (aggregateScores youtube_trends tiktok_trends instagram_trends).map
    (fun e => ⟨e.1, trendingScoreOf e.2, e.2.count, e.2.total_views, e.2.platforms,
      e.2.platforms.length⟩)

/-- `extract_trending_keywords` (main.py): accumulate per-keyword statistics
over the three platform batches, build the rows, and stable-sort them by
`trending_score` descending. -/
def extract_trending_keywords (youtube_trends tiktok_trends instagram_trends : List Trend) :
    List RankedKeyword :=
  (preRankedRows youtube_trends tiktok_trends instagram_trends).insertionSort scoreRel

/-- Dict lookup in the accumulator. -/
def lookupKw : ScoreMap → List Char → Option KwData
  | [], _ => Option.none
  | (k, d) :: rest, kw => if k = kw then some d else lookupKw rest kw

/-- The occurrence count a keyword has accumulated (0 when absent). -/
def countOf (m : ScoreMap) (kw : List Char) : Nat :=
  ((lookupKw m kw).map KwData.count).getD 0

/-- The view total a keyword has accumulated (0 when absent). -/
def viewsOf (m : ScoreMap) (kw : List Char) : Int :=
  ((lookupKw m kw).map KwData.total_views).getD 0

/-- First-occurrence de-duplication: the key order of a Python dict whose keys
are inserted on first sight. -/
def firstSeen (tokens : List (List Char)) : List (List Char) :=
  tokens.foldl (fun ks kw => if kw ∈ ks then ks else ks ++ [kw]) []

/-- The concatenated keyword-occurrence stream of all records, in processing
order. -/
def tokenStream (youtube_trends tiktok_trends instagram_trends : List Trend) :
    List (List Char) :=
  (((youtube_trends ++ tiktok_trends) ++ instagram_trends).map
    (fun t => extract_keywords_from_text (trendText t))).flatten

/-! ### Lemmas about the accumulator -/

theorem lookupKw_bumpEntry_self (p : List Char) (v : Int) (kw : List Char) (m : ScoreMap) :
    lookupKw (bumpEntry p v kw m) kw =
      some (match lookupKw m kw with
        | some d => ⟨d.count + 1, d.total_views + v, addPlatform p d.platforms⟩
        | Option.none => ⟨1, v, [p]⟩) := by
  induction m with
  | nil => simp [bumpEntry, lookupKw]
  | cons e rest ih =>
    obtain ⟨k, d⟩ := e
    by_cases hk : k = kw
    · subst hk
      simp [bumpEntry, lookupKw]
    · simp only [bumpEntry, lookupKw, if_neg hk]
      exact ih

theorem lookupKw_bumpEntry_ne (p : List Char) (v : Int) {kw kw2 : List Char}
    (h : kw2 ≠ kw) (m : ScoreMap) :
    lookupKw (bumpEntry p v kw m) kw2 = lookupKw m kw2 := by
  induction m with
  | nil =>
    have hne : ¬ kw = kw2 := fun he => h he.symm
    simp [bumpEntry, lookupKw, hne]
  | cons e rest ih =>
    obtain ⟨k, d⟩ := e
    by_cases hk : k = kw
    · subst hk
      have hk2 : k ≠ kw2 := fun he => h he.symm
      simp [bumpEntry, lookupKw, hk2]
    · by_cases hk2 : k = kw2
      · subst hk2
        simp [bumpEntry, lookupKw, hk]
      · simp only [bumpEntry, lookupKw, if_neg hk, if_neg hk2]
        exact ih

theorem countOf_bumpEntry (p : List Char) (v : Int) (kw kw2 : List Char) (m : ScoreMap) :
    countOf (bumpEntry p v kw m) kw2 =
      countOf m kw2 + (if kw = kw2 then 1 else 0) := by
  by_cases h : kw = kw2
  · subst h
    unfold countOf
    rw [lookupKw_bumpEntry_self]
    cases lookupKw m kw with
    | none => simp
    | some d => simp
  · unfold countOf
    rw [lookupKw_bumpEntry_ne p v (fun he => h he.symm) m, if_neg h]
    simp

theorem viewsOf_bumpEntry (p : List Char) (v : Int) (kw kw2 : List Char) (m : ScoreMap) :
    viewsOf (bumpEntry p v kw m) kw2 =
      viewsOf m kw2 + (if kw = kw2 then v else 0) := by
  by_cases h : kw = kw2
  · subst h
    unfold viewsOf
    rw [lookupKw_bumpEntry_self]
    cases lookupKw m kw with
    | none => simp
    | some d => simp [add_comm]
  · unfold viewsOf
    rw [lookupKw_bumpEntry_ne p v (fun he => h he.symm) m, if_neg h]
    simp

theorem countOf_foldl_bump (p : List Char) (v : Int) (tokens : List (List Char)) :
    ∀ m : ScoreMap, ∀ kw : List Char,
      countOf (tokens.foldl (fun m kw => bumpEntry p v kw m) m) kw =
        countOf m kw + tokens.count kw := by
  induction tokens with
  | nil => intro m kw; simp
  | cons t ts ih =>
    intro m kw
    rw [List.foldl_cons, ih (bumpEntry p v t m) kw, countOf_bumpEntry,
      List.count_cons]
    have hiff : ((t == kw) = true) ↔ t = kw := beq_iff_eq
    by_cases h : t = kw
    · simp only [h, if_pos rfl, beq_self_eq_true, if_true]
      omega
    · have hb : (t == kw) = false := by
        rw [Bool.eq_false_iff]
        intro hbt
        exact h (hiff.1 hbt)
      simp [h, hb]

theorem viewsOf_foldl_bump (p : List Char) (v : Int) (tokens : List (List Char)) :
    ∀ m : ScoreMap, ∀ kw : List Char,
      viewsOf (tokens.foldl (fun m kw => bumpEntry p v kw m) m) kw =
        viewsOf m kw + (tokens.count kw : Int) * v := by
  induction tokens with
  | nil => intro m kw; simp
  | cons t ts ih =>
    intro m kw
    rw [List.foldl_cons, ih (bumpEntry p v t m) kw, viewsOf_bumpEntry,
      List.count_cons]
    have hiff : ((t == kw) = true) ↔ t = kw := beq_iff_eq
    by_cases h : t = kw
    · subst h
      simp only [if_pos rfl, beq_self_eq_true, if_true]
      push_cast
      ring
    · have hb : (t == kw) = false := by
        rw [Bool.eq_false_iff]
        intro hbt
        exact h (hiff.1 hbt)
      simp [h, hb]

/-- C1 counterexample: the record titled `"게임 게임"` carries the keyword
`게임` twice in one record's text, and the aggregator counts it **twice** and
adds the record's 1000 views **twice** (count = 2, total_views = 2000,
trending_score = 2·10 + 2000//1000 + 1·5 = 27) — not once per record as the
claim states. -/
theorem keyword_repeat_increments_cx :
    extract_trending_keywords [⟨"게임 게임".data, Option.none, some 1000⟩] [] [] =
      [⟨"게임".data, 27, 2, 2000, ["youtube".data], 1⟩] := by
  decide

/-- C1 (amended): for every record, every prior accumulator state and every
keyword, processing the record increments the keyword's occurrence count once
per OCCURRENCE of the keyword in the record's extracted token list — a
keyword repeated within one record's text re-increments — and adds the
record's `view_count or 0` once per occurrence likewise. -/
theorem process_record_per_occurrence (platform : List Char) (t : Trend) (m : ScoreMap)
    (kw : List Char) :
    countOf (processRecord platform t m) kw =
        countOf m kw + (extract_keywords_from_text (trendText t)).count kw ∧
      viewsOf (processRecord platform t m) kw =
        viewsOf m kw +
          ((extract_keywords_from_text (trendText t)).count kw : Int) *
            (t.view_count.getD 0) := by
  unfold processRecord
  exact ⟨countOf_foldl_bump platform (t.view_count.getD 0) _ m kw,
    viewsOf_foldl_bump platform (t.view_count.getD 0) _ m kw⟩

/-- C3: every row of the ranked output satisfies
`trending_score = count*10 + total_views//1000 + platform_count*5` with
`platform_count = |platforms|`; and the three-platform `"game"` scenario
(1000 views each) yields exactly one row with score 48. -/
theorem trending_score_formula (youtube_trends tiktok_trends instagram_trends : List Trend) :
    (∀ e ∈ extract_trending_keywords youtube_trends tiktok_trends instagram_trends,
      e.trending_score = (e.count : Int) * 10 + e.total_views.fdiv 1000 +
          (e.platform_count : Int) * 5 ∧
        e.platform_count = e.platforms.length) ∧
    extract_trending_keywords [⟨"game".data, Option.none, some 1000⟩]
        [⟨"game".data, Option.none, some 1000⟩] [⟨"game".data, Option.none, some 1000⟩] =
      [⟨"game".data, 48, 3, 3000, ["youtube".data, "tiktok".data, "instagram".data], 3⟩] := by
  constructor
  · intro e he
    unfold extract_trending_keywords at he
    rw [List.mem_insertionSort] at he
    unfold preRankedRows at he
    obtain ⟨entry, _, rfl⟩ := List.mem_map.1 he
    exact ⟨rfl, rfl⟩
  · decide

/-- Witness for `trending_score_formula`, at the `"game"` scenario row. -/
theorem trending_score_formula_witness :
    (⟨"game".data, 48, 3, 3000, ["youtube".data, "tiktok".data, "instagram".data], 3⟩ :
        RankedKeyword).trending_score =
      ((3 : Nat) : Int) * 10 + (3000 : Int).fdiv 1000 + ((3 : Nat) : Int) * 5 :=
  ((trending_score_formula [⟨"game".data, Option.none, some 1000⟩]
    [⟨"game".data, Option.none, some 1000⟩] [⟨"game".data, Option.none, some 1000⟩]).1
    ⟨"game".data, 48, 3, 3000, ["youtube".data, "tiktok".data, "instagram".data], 3⟩
    (by decide)).1

/-! ### Stability of the final sort (claim C4) -/

theorem filter_orderedInsert_score (x : RankedKeyword) (l : List RankedKeyword) (s : Int) :
    (l.orderedInsert scoreRel x).filter (fun e => decide (e.trending_score = s)) =
      if x.trending_score = s then
        x :: l.filter (fun e => decide (e.trending_score = s))
      else l.filter (fun e => decide (e.trending_score = s)) := by
  induction l with
  | nil =>
    by_cases h : x.trending_score = s <;> simp [List.orderedInsert, h]
  | cons y ys ih =>
    rw [List.orderedInsert]
    by_cases hr : scoreRel x y
    · rw [if_pos hr]
      by_cases h : x.trending_score = s <;> simp [List.filter_cons, h]
    · rw [if_neg hr]
      have hxy : x.trending_score < y.trending_score := by
        unfold scoreRel at hr
        omega
      by_cases hy : y.trending_score = s
      · have hx : ¬ x.trending_score = s := by omega
        simp [List.filter_cons, ih, hx, hy]
      · by_cases hx : x.trending_score = s <;>
          simp [List.filter_cons, ih, hx, hy]

theorem filter_insertionSort_score (l : List RankedKeyword) (s : Int) :
    (l.insertionSort scoreRel).filter (fun e => decide (e.trending_score = s)) =
      l.filter (fun e => decide (e.trending_score = s)) := by
  induction l with
  | nil => rfl
  | cons a l ih =>
    rw [List.insertionSort, filter_orderedInsert_score, List.filter_cons]
    by_cases h : a.trending_score = s
    · rw [if_pos h, ih]
      simp [h]
    · rw [if_neg h, ih]
      simp [h]

theorem keys_bumpEntry (p : List Char) (v : Int) (kw : List Char) (m : ScoreMap) :
    (bumpEntry p v kw m).map Prod.fst =
      if kw ∈ m.map Prod.fst then m.map Prod.fst else m.map Prod.fst ++ [kw] := by
  induction m with
  | nil => simp [bumpEntry]
  | cons e rest ih =>
    obtain ⟨k, d⟩ := e
    by_cases hk : k = kw
    · subst hk
      rw [show bumpEntry p v k ((k, d) :: rest) =
          (k, ⟨d.count + 1, d.total_views + v, addPlatform p d.platforms⟩) :: rest from by
        rw [bumpEntry, if_pos rfl]]
      rw [List.map_cons, List.map_cons, if_pos (List.mem_cons_self _ _)]
    · have hne : ¬ kw = k := fun he => hk he.symm
      rw [show bumpEntry p v kw ((k, d) :: rest) = (k, d) :: bumpEntry p v kw rest from by
        rw [bumpEntry, if_neg hk]]
      rw [List.map_cons, List.map_cons, ih]
      by_cases hmem : kw ∈ rest.map Prod.fst
      · rw [if_pos hmem, if_pos (List.mem_cons_of_mem _ hmem)]
      · rw [if_neg hmem, if_neg (by
          rw [List.mem_cons]
          rintro (he | he)
          · exact hne he
          · exact hmem he)]
        rw [List.cons_append]

theorem keys_foldl_bump (p : List Char) (v : Int) (tokens : List (List Char)) :
    ∀ m : ScoreMap,
      ((tokens.foldl (fun m kw => bumpEntry p v kw m) m).map Prod.fst) =
        tokens.foldl (fun ks kw => if kw ∈ ks then ks else ks ++ [kw])
          (m.map Prod.fst) := by
  induction tokens with
  | nil => intro m; rfl
  | cons t ts ih =>
    intro m
    rw [List.foldl_cons, List.foldl_cons, ih, keys_bumpEntry]

theorem keys_processRecord (p : List Char) (t : Trend) (m : ScoreMap) :
    (processRecord p t m).map Prod.fst =
      (extract_keywords_from_text (trendText t)).foldl
        (fun ks kw => if kw ∈ ks then ks else ks ++ [kw]) (m.map Prod.fst) :=
  keys_foldl_bump p (t.view_count.getD 0) _ m

theorem keys_processBatch (p : List Char) (ts : List Trend) :
    ∀ m : ScoreMap,
      (processBatch p ts m).map Prod.fst =
        ((ts.map (fun t => extract_keywords_from_text (trendText t))).flatten).foldl
          (fun ks kw => if kw ∈ ks then ks else ks ++ [kw]) (m.map Prod.fst) := by
  induction ts with
  | nil => intro m; rfl
  | cons t ts ih =>
    intro m
    unfold processBatch
    rw [List.foldl_cons]
    have hrec := ih (processRecord p t m)
    unfold processBatch at hrec
    rw [hrec, keys_processRecord, List.map_cons, List.flatten_cons, List.foldl_append]

theorem keys_aggregateScores (youtube_trends tiktok_trends instagram_trends : List Trend) :
    (aggregateScores youtube_trends tiktok_trends instagram_trends).map Prod.fst =
      firstSeen (tokenStream youtube_trends tiktok_trends instagram_trends) := by
  unfold aggregateScores firstSeen tokenStream
  rw [keys_processBatch, keys_processBatch, keys_processBatch]
  rw [List.map_append, List.map_append, List.flatten_append, List.flatten_append,
    List.foldl_append, List.foldl_append]
  rfl

/-- C4: the ranked output is sorted descending by `trending_score`; rows of
equal score keep exactly the relative order of the pre-sort rows (the sort is
stable); and the pre-sort row order is the keywords' first-seen order in the
concatenated record stream. -/
theorem trending_sort_stable (youtube_trends tiktok_trends instagram_trends : List Trend) :
    List.Sorted scoreRel
        (extract_trending_keywords youtube_trends tiktok_trends instagram_trends) ∧
    (∀ s : Int,
      (extract_trending_keywords youtube_trends tiktok_trends instagram_trends).filter
          (fun e => decide (e.trending_score = s)) =
        (preRankedRows youtube_trends tiktok_trends instagram_trends).filter
          (fun e => decide (e.trending_score = s))) ∧
    (preRankedRows youtube_trends tiktok_trends instagram_trends).map
        RankedKeyword.keyword =
      firstSeen (tokenStream youtube_trends tiktok_trends instagram_trends) := by
  refine ⟨List.sorted_insertionSort scoreRel _,
    fun s => filter_insertionSort_score _ s, ?_⟩
  unfold preRankedRows
  rw [List.map_map, ← keys_aggregateScores youtube_trends tiktok_trends instagram_trends]
  rfl

/-! ## `_calculate_engagement_score` (age_analysis_service.py, claim C5) -/

/-- The engagement counters a record carries.  `trend.get('…', 0) or 0` in the
source treats a missing key and `None` alike as `0`, so each counter is
embedded as `Option Int` read through `getD 0`. -/
structure EngagementCounters where
  view_count : Option Int
  like_count : Option Int
  comment_count : Option Int
  share_count : Option Int

/-- `AgeAnalysisService._calculate_engagement_score`: weighted sum
`views*0.1 + likes*0.3 + comments*0.4 + shares*0.2`, clamped at 1000
(`min(score, 1000)`).  Float weights are embedded as exact rationals. -/
def calculate_engagement_score (t : EngagementCounters) : Rat :=
  let view_count : Rat := ((t.view_count.getD 0 : Int) : Rat)
  let like_count : Rat := ((t.like_count.getD 0 : Int) : Rat)
  let comment_count : Rat := ((t.comment_count.getD 0 : Int) : Rat)
  let share_count : Rat := ((t.share_count.getD 0 : Int) : Rat)
  min (view_count * (1/10) + like_count * (3/10) + comment_count * (4/10) +
    share_count * (2/10)) 1000

/-- C5: for counters that are each null or non-negative, the engagement score
is the clamped weighted sum, lies in `[0, 1000]`, and is monotone
non-decreasing in each individual counter holding the others fixed. -/
theorem engagement_score_spec (v l c s : Option Int)
    (hv : 0 ≤ v.getD 0) (hl : 0 ≤ l.getD 0) (hc : 0 ≤ c.getD 0) (hs : 0 ≤ s.getD 0) :
    calculate_engagement_score ⟨v, l, c, s⟩ =
        min (((v.getD 0 : Int) : Rat) * (1/10) + ((l.getD 0 : Int) : Rat) * (3/10) +
          ((c.getD 0 : Int) : Rat) * (4/10) + ((s.getD 0 : Int) : Rat) * (2/10)) 1000 ∧
      0 ≤ calculate_engagement_score ⟨v, l, c, s⟩ ∧
      calculate_engagement_score ⟨v, l, c, s⟩ ≤ 1000 ∧
      (∀ v2 : Option Int, v.getD 0 ≤ v2.getD 0 →
        calculate_engagement_score ⟨v, l, c, s⟩ ≤ calculate_engagement_score ⟨v2, l, c, s⟩) ∧
      (∀ l2 : Option Int, l.getD 0 ≤ l2.getD 0 →
        calculate_engagement_score ⟨v, l, c, s⟩ ≤ calculate_engagement_score ⟨v, l2, c, s⟩) ∧
      (∀ c2 : Option Int, c.getD 0 ≤ c2.getD 0 →
        calculate_engagement_score ⟨v, l, c, s⟩ ≤ calculate_engagement_score ⟨v, l, c2, s⟩) ∧
      (∀ s2 : Option Int, s.getD 0 ≤ s2.getD 0 →
        calculate_engagement_score ⟨v, l, c, s⟩ ≤ calculate_engagement_score ⟨v, l, c, s2⟩) := by
  have hv' : (0:Rat) ≤ ((v.getD 0 : Int) : Rat) := by exact_mod_cast hv
  have hl' : (0:Rat) ≤ ((l.getD 0 : Int) : Rat) := by exact_mod_cast hl
  have hc' : (0:Rat) ≤ ((c.getD 0 : Int) : Rat) := by exact_mod_cast hc
  have hs' : (0:Rat) ≤ ((s.getD 0 : Int) : Rat) := by exact_mod_cast hs
  refine ⟨rfl, ?_, ?_, ?_, ?_, ?_, ?_⟩
  · unfold calculate_engagement_score
    refine le_min ?_ (by norm_num)
    positivity
  · exact min_le_right _ _
  · intro v2 h2
    unfold calculate_engagement_score
    have h2' : ((v.getD 0 : Int) : Rat) ≤ ((v2.getD 0 : Int) : Rat) := by exact_mod_cast h2
    refine min_le_min ?_ le_rfl
    linarith
  · intro l2 h2
    unfold calculate_engagement_score
    have h2' : ((l.getD 0 : Int) : Rat) ≤ ((l2.getD 0 : Int) : Rat) := by exact_mod_cast h2
    refine min_le_min ?_ le_rfl
    linarith
  · intro c2 h2
    unfold calculate_engagement_score
    have h2' : ((c.getD 0 : Int) : Rat) ≤ ((c2.getD 0 : Int) : Rat) := by exact_mod_cast h2
    refine min_le_min ?_ le_rfl
    linarith
  · intro s2 h2
    unfold calculate_engagement_score
    have h2' : ((s.getD 0 : Int) : Rat) ≤ ((s2.getD 0 : Int) : Rat) := by exact_mod_cast h2
    refine min_le_min ?_ le_rfl
    linarith

/-! ## `analyze_specific_keyword` (age_analysis_service.py, claim C2) -/

/-- Python `round(x, 2)` on an exact rational: round half to even at the
second decimal (CPython rounds the underlying double; on the exactly
representable values this service produces the two agree). -/
def round2 (q : Rat) : Rat :=
  ((if q * 100 - (⌊q * 100⌋ : Rat) < 1/2 then ⌊q * 100⌋
    else if (1:Rat)/2 < q * 100 - (⌊q * 100⌋ : Rat) then ⌊q * 100⌋ + 1
    else if ⌊q * 100⌋ % 2 = 0 then ⌊q * 100⌋ else ⌊q * 100⌋ + 1 : Int) : Rat) / 100

/-- One value of `AgeAnalysisService.age_group_patterns`. -/
structure AgeGroupPattern where
  keywords : List (List Char)
  platforms : List (List Char)
  weight : Rat
deriving DecidableEq

/-- `AgeAnalysisService.age_group_patterns`, in dict insertion order. -/
def age_group_patterns : List (List Char × AgeGroupPattern) :=
  [("10대".data,
    ⟨(["게임", "애니메이션", "만화", "아이돌", "K-pop", "댄스", "틱톡",
       "유튜브", "스트리밍", "코스프레", "팬아트", "팬픽", "캐릭터",
       "스킨케어", "메이크업", "패션", "스니커즈", "백팩", "학원",
       "수능", "입시", "대학", "고등학교", "중학교", "친구", "연애"]).map String.data,
     (["tiktok", "youtube", "instagram"]).map String.data, 1⟩),
   ("20대".data,
    ⟨(["취업", "이력서", "면접", "스타트업", "창업", "투자", "주식",
       "부동산", "집", "월세", "전세", "대출", "카드", "적금",
       "연봉", "급여", "세금", "연말정산", "복지", "휴가",
       "여행", "맛집", "카페", "술집", "클럽", "데이트", "연애",
       "결혼", "웨딩", "신혼", "육아", "육아맘", "육아맘블로그"]).map String.data,
     (["instagram", "youtube", "tiktok"]).map String.data, 12/10⟩),
   ("30대".data,
    ⟨(["결혼", "육아", "아이", "유치원", "초등학교", "학원", "과외",
       "집", "아파트", "분양", "인테리어", "가전제품", "가구",
       "차", "자동차", "보험", "투자", "펀드", "연금", "은퇴",
       "건강", "운동", "다이어트", "요리", "베이킹", "가드닝",
       "취미", "독서", "영화", "드라마", "넷플릭스", "OTT"]).map String.data,
     (["youtube", "instagram", "tiktok"]).map String.data, 11/10⟩),
   ("40대".data,
    ⟨(["건강", "운동", "다이어트", "요리", "베이킹", "가드닝",
       "취미", "독서", "영화", "드라마", "넷플릭스", "OTT",
       "집", "아파트", "분양", "인테리어", "가전제품", "가구",
       "차", "자동차", "보험", "투자", "펀드", "연금", "은퇴",
       "부모님", "효도", "가족여행", "가족사진", "가족모임"]).map String.data,
     (["youtube", "instagram"]).map String.data, 9/10⟩),
   ("50대+".data,
    ⟨(["건강", "운동", "다이어트", "요리", "베이킹", "가드닝",
       "취미", "독서", "영화", "드라마", "넷플릭스", "OTT",
       "집", "아파트", "분양", "인테리어", "가전제품", "가구",
       "차", "자동차", "보험", "투자", "펀드", "연금", "은퇴",
       "부모님", "효도", "가족여행", "가족사진", "가족모임",
       "노후", "은퇴", "연금", "보험", "건강검진", "병원"]).map String.data,
     (["youtube"]).map String.data, 8/10⟩)]

/-- `AgeAnalysisService._get_trending_level`. -/
def get_trending_level (score : Rat) : List Char :=
  if 500 < score then "🔥 매우 인기".data
  else if 200 < score then "📈 인기 상승".data
  else if 50 < score then "📊 관심 증가".data
  else "📋 일반".data

/-- `AgeAnalysisService._calculate_age_relevance`: full weight × 100 on an
exact (case-insensitive) dictionary hit, half that on a substring overlap
with any dictionary entry, otherwise the flat baseline 10.0.  (The unused
`age_group` parameter of the source is dropped.) -/
def calculate_age_relevance (keyword : List Char) (patterns : AgeGroupPattern) : Rat :=
  if lowerStr keyword ∈ patterns.keywords.map lowerStr then patterns.weight * 100
  else if patterns.keywords.any
      (fun pk => decide (lowerStr keyword <:+: lowerStr pk) ||
        decide (lowerStr pk <:+: lowerStr keyword)) then
    patterns.weight * 50
  else 10

/-- One age group's row of the keyword report. -/
structure AgeAnalysis where
  mentions : Int
  platform_mentions : List (List Char × Int)
  engagement_score : Rat
  relevance_score : Rat
  trending_level : List Char
deriving DecidableEq

/-- `AgeAnalysisService._generate_keyword_analysis_for_age_group` (the dummy
generator actually wired into `analyze_specific_keyword`): everything is
derived from the relevance score alone — the collected records never enter.
`int(x)` is truncation toward zero, `//` is floor division. -/
def generate_keyword_analysis_for_age_group (keyword : List Char)
    (patterns : AgeGroupPattern) : AgeAnalysis :=
  let relevance_score := calculate_age_relevance keyword patterns
  let mentions : Int := ratTrunc (relevance_score / 10) + 5
  let engagement_score := relevance_score * 10
  ⟨mentions,
    patterns.platforms.map (fun p => (p, mentions.fdiv (patterns.platforms.length : Int))),
    round2 engagement_score, round2 relevance_score, get_trending_level engagement_score⟩

/-- `AgeAnalysisService._generate_trending_direction` (dummy): direction from
the keyword's length alone. -/
def generate_trending_direction (keyword : List Char) : List Char :=
  if 5 < keyword.length then "상승".data
  else if 3 < keyword.length then "유지".data
  else "하락".data

/-- The `related_keywords_map` dict of
`AgeAnalysisService._generate_related_keywords`, in insertion order. -/
def related_keywords_map : List (List Char × List (List Char)) :=
  [("게임".data, (["게임", "플레이", "스팀", "콘솔", "모바일게임"]).map String.data),
   ("취업".data, (["이력서", "면접", "스타트업", "연봉", "복지"]).map String.data),
   ("결혼".data, (["웨딩", "신혼", "육아", "가족", "부부"]).map String.data),
   ("건강".data, (["운동", "다이어트", "병원", "약", "검진"]).map String.data),
   ("집".data, (["아파트", "분양", "인테리어", "가전제품", "가구"]).map String.data),
   ("차".data, (["자동차", "보험", "정비", "주유", "주차"]).map String.data)]

/-- The fallback list `default_related` of the same method. -/
def default_related : List (List Char) :=
  (["관련", "유사", "비슷", "연관", "관계"]).map String.data

/-- `AgeAnalysisService._generate_related_keywords` (dummy): first map entry
whose key is a substring of the keyword, else the default list; either way
truncated to 5. -/
def generate_related_keywords (keyword : List Char) : List (List Char) :=
  match related_keywords_map.find? (fun e => decide (e.1 <:+: keyword)) with
  | some e => e.2.take 5
  | Option.none => default_related.take 5

/-- The positive word list of `_generate_sentiment_score`. -/
def positive_keywords : List (List Char) :=
  (["좋다", "최고", "대박", "완벽", "사랑", "추천", "인기", "성공", "행복"]).map String.data

/-- The negative word list of `_generate_sentiment_score` (the source lists
`실패` twice; the duplicate is kept). -/
def negative_keywords : List (List Char) :=
  (["나쁘다", "최악", "실패", "별로", "싫다", "문제", "실망", "실패",
    "스트레스"]).map String.data

/-- `AgeAnalysisService._generate_sentiment_score` (dummy): 0.8 on any
positive word inside the lowercased keyword, else −0.6 on any negative word,
else the neutral 0.1 — never exactly 0. -/
def generate_sentiment_score (keyword : List Char) : Rat :=
  if positive_keywords.any (fun w => decide (w <:+: lowerStr keyword)) then 8/10
  else if negative_keywords.any (fun w => decide (w <:+: lowerStr keyword)) then -(6/10)
  else 1/10

/-- `defaultdict(int)` accumulation keyed by platform name. -/
def bumpPlat (key : List Char) (delta : Int) :
    List (List Char × Int) → List (List Char × Int)
  | [] => [(key, delta)]
  | (k, n) :: rest =>
    if k = key then (k, n + delta) :: rest else (k, n) :: bumpPlat key delta rest

/-- The per-age-group rows of the keyword report. -/
def analyzeAgeGroups (keyword : List Char) : List (List Char × AgeAnalysis) :=
  age_group_patterns.map
    (fun g => (g.1, generate_keyword_analysis_for_age_group keyword g.2))

/-- The full result record of `analyze_specific_keyword`. -/
structure KeywordAnalysisResult where
  keyword : List Char
  age_groups : List (List Char × AgeAnalysis)
  total_mentions : Int
  platform_breakdown : List (List Char × Int)
  trending_trend : List Char
  related_keywords : List (List Char)
  sentiment_score : Rat
deriving DecidableEq

/-- `AgeAnalysisService.analyze_specific_keyword`: the report is generated
from the age-group dictionaries and the keyword alone — the `platforms`
argument and the collected records are never consulted on this path. -/
def analyze_specific_keyword (keyword : List Char) : KeywordAnalysisResult :=
  ⟨keyword, analyzeAgeGroups keyword,
    ((analyzeAgeGroups keyword).map (fun g => g.2.mentions)).sum,
    (analyzeAgeGroups keyword).foldl
      (fun acc g => g.2.platform_mentions.foldl (fun a pm => bumpPlat pm.1 pm.2 a) acc) [],
    generate_trending_direction keyword, generate_related_keywords keyword,
    generate_sentiment_score keyword⟩

/-! ### Lemmas about the keyword report -/

theorem mentions_of_baseline {keyword : List Char} {pat : AgeGroupPattern}
    (h : calculate_age_relevance keyword pat = 10) :
    (generate_keyword_analysis_for_age_group keyword pat).mentions = 6 := by
  show ratTrunc (calculate_age_relevance keyword pat / 10) + 5 = 6
  rw [h]
  have h10 : ((10:Rat) / 10) = 1 := by norm_num
  rw [h10, ratTrunc, if_neg (by norm_num)]
  norm_num

/-- The report facts shared by the counterexample and the amended theorem:
under a keyword that matches nothing, the dummy report is 30 / 0.1 / the
default five related keywords. -/
theorem analyze_baseline (keyword : List Char)
    (hrel : ∀ g ∈ age_group_patterns, calculate_age_relevance keyword g.2 = 10)
    (hpos : positive_keywords.any (fun w => decide (w <:+: lowerStr keyword)) = false)
    (hneg : negative_keywords.any (fun w => decide (w <:+: lowerStr keyword)) = false)
    (hmap : ∀ e ∈ related_keywords_map, ¬ (e.1 <:+: keyword)) :
    (analyze_specific_keyword keyword).total_mentions = 30 ∧
      (analyze_specific_keyword keyword).sentiment_score = 1/10 ∧
      (analyze_specific_keyword keyword).related_keywords = default_related := by
  refine ⟨?_, ?_, ?_⟩
  · show ((analyzeAgeGroups keyword).map (fun g => g.2.mentions)).sum = 30
    unfold analyzeAgeGroups
    rw [List.map_map]
    have hcong : age_group_patterns.map
        ((fun g : List Char × AgeAnalysis => g.2.mentions) ∘
          (fun g : List Char × AgeGroupPattern =>
            (g.1, generate_keyword_analysis_for_age_group keyword g.2))) =
        age_group_patterns.map (fun _ => (6 : Int)) := by
      apply List.map_congr_left
      intro g hg
      exact mentions_of_baseline (hrel g hg)
    rw [hcong]
    rfl
  · show generate_sentiment_score keyword = 1/10
    unfold generate_sentiment_score
    rw [if_neg (by rw [hpos]; exact Bool.false_ne_true),
      if_neg (by rw [hneg]; exact Bool.false_ne_true)]
  · show generate_related_keywords keyword = default_related
    unfold generate_related_keywords
    rw [List.find?_eq_none.2 (fun e he hd => hmap e he (of_decide_eq_true hd))]
    rfl

/-- The relevance of `"헬스"` is the flat baseline in every age group: it is
no dictionary entry and overlaps none. -/
theorem helseu_relevance :
    ∀ g ∈ age_group_patterns, calculate_age_relevance ("헬스".data) g.2 = 10 := by
  intro g hg
  unfold age_group_patterns at hg
  rw [List.mem_cons, List.mem_cons, List.mem_cons, List.mem_cons, List.mem_cons] at hg
  rcases hg with rfl | rfl | rfl | rfl | rfl | h
  · rw [calculate_age_relevance, if_neg (by decide), if_neg (by decide)]
  · rw [calculate_age_relevance, if_neg (by decide), if_neg (by decide)]
  · rw [calculate_age_relevance, if_neg (by decide), if_neg (by decide)]
  · rw [calculate_age_relevance, if_neg (by decide), if_neg (by decide)]
  · rw [calculate_age_relevance, if_neg (by decide), if_neg (by decide)]
  · exact absurd h (List.not_mem_nil g)

/-- C2 counterexample: the keyword report for `"헬스"` — a keyword matching
zero records, indeed the records are never consulted — has
`total_mentions = 30` (6 per age group), `sentiment_score = 0.1` and the five
default related keywords, so none of `0`, `0.0`, `[]` claimed by the spec. -/
theorem keyword_report_dummy_cx :
    (analyze_specific_keyword ("헬스".data)).total_mentions = 30 ∧
      (analyze_specific_keyword ("헬스".data)).sentiment_score = 1/10 ∧
      (analyze_specific_keyword ("헬스".data)).related_keywords = default_related ∧
      (analyze_specific_keyword ("헬스".data)).total_mentions ≠ 0 ∧
      (analyze_specific_keyword ("헬스".data)).sentiment_score ≠ 0 ∧
      (analyze_specific_keyword ("헬스".data)).related_keywords ≠ [] := by
  obtain ⟨h1, h2, h3⟩ := analyze_baseline ("헬스".data) helseu_relevance
    (by decide) (by decide) (by decide)
  refine ⟨h1, h2, h3, ?_, ?_, ?_⟩
  · rw [h1]; norm_num
  · rw [h2]; norm_num
  · rw [h3]; decide

/-- C2 (amended): `analyze_specific_keyword` never consults the collected
records; for every keyword that matches no age-group dictionary entry
(exactly or by substring overlap), contains no sentiment word and no
related-map key — `"헬스"` among them — the report has `total_mentions = 30`
(6 per age group), `sentiment_score = 0.1` and the five default related
keywords; never `0`, `0.0` and `[]`. -/
theorem keyword_report_baseline (keyword : List Char)
    (hrel : ∀ g ∈ age_group_patterns, calculate_age_relevance keyword g.2 = 10)
    (hpos : positive_keywords.any (fun w => decide (w <:+: lowerStr keyword)) = false)
    (hneg : negative_keywords.any (fun w => decide (w <:+: lowerStr keyword)) = false)
    (hmap : ∀ e ∈ related_keywords_map, ¬ (e.1 <:+: keyword)) :
    (analyze_specific_keyword keyword).total_mentions = 30 ∧
      (analyze_specific_keyword keyword).sentiment_score = 1/10 ∧
      (analyze_specific_keyword keyword).related_keywords = default_related :=
  analyze_baseline keyword hrel hpos hneg hmap

/-- Witness for `keyword_report_baseline` at the spec's own scenario keyword
`"헬스"`. -/
theorem keyword_report_baseline_witness :
    (analyze_specific_keyword ("헬스".data)).total_mentions = 30 ∧
      (analyze_specific_keyword ("헬스".data)).sentiment_score = 1/10 ∧
      (analyze_specific_keyword ("헬스".data)).related_keywords = default_related :=
  keyword_report_baseline ("헬스".data) helseu_relevance (by decide) (by decide)
    (by decide)

/-- Witness for `engagement_score_spec`: concrete counters
`views=100, likes=10, comments=5, shares=None`. -/
theorem engagement_score_spec_witness :
    (0:Int) ≤ 100 ∧
      calculate_engagement_score ⟨some 100, some 10, some 5, Option.none⟩ ≤ 1000 :=
  ⟨by norm_num,
    (engagement_score_spec (some 100) (some 10) (some 5) Option.none
      (by norm_num) (by norm_num) (by norm_num) (by norm_num)).2.2.1⟩

/-! ## `_filter_by_time_and_form` (youtube_service.py, claim C6) -/

/-- The fields of a `YouTubeAnalyzeRow` that the time-and-form filter reads.
`published_at` is a timestamp in seconds; `datetime` comparisons embed as
integer comparisons. -/
structure AnalyzeRow where
  video_id : List Char
  published_at : Option Int
  duration : Option (List Char)
deriving DecidableEq

/-- `YouTubeService._duration_to_seconds`: the empty string gives 0,
`h:mm:ss` and `m:ss` convert, any other shape takes `int(parts[0])`, and any
`int()` failure is caught and gives 0. -/
def duration_to_seconds (duration_str : List Char) : Int :=
  if duration_str = [] then 0
  else
    if (splitOnChar ':' duration_str).length = 3 then
      match parseIntLit? ((splitOnChar ':' duration_str).getD 0 []),
          parseIntLit? ((splitOnChar ':' duration_str).getD 1 []),
          parseIntLit? ((splitOnChar ':' duration_str).getD 2 []) with
      | some h, some m, some s => h * 3600 + m * 60 + s
      | _, _, _ => 0
    else if (splitOnChar ':' duration_str).length = 2 then
      match parseIntLit? ((splitOnChar ':' duration_str).getD 0 []),
          parseIntLit? ((splitOnChar ':' duration_str).getD 1 []) with
      | some m, some s => m * 60 + s
      | _, _ => 0
    else
      match parseIntLit? ((splitOnChar ':' duration_str).getD 0 []) with
      | some x => x
      | Option.none => 0

/-- `if r.published_at and r.published_at < threshold_dt: continue` — the
time-window drop of `_filter_by_time_and_form`. -/
def timeDropped (threshold_dt : Int) (r : AnalyzeRow) : Bool :=
  match r.published_at with
  | some ts => decide (ts < threshold_dt)
  | Option.none => false

/-- The form-classification block of `_filter_by_time_and_form`: entered only
for `form != 'both'` and a non-null duration; inside,
`is_shorts = total_seconds <= shorts_threshold` and the row is dropped when
the form does not match. -/
def formKeeps (form : List Char) (shorts_threshold : Int) (r : AnalyzeRow) : Bool :=
  if form ≠ "both".data ∧ r.duration ≠ Option.none then
    !(decide (form = "shorts".data) &&
        !(decide (duration_to_seconds (r.duration.getD []) ≤ shorts_threshold))) &&
      !(decide (form = "long".data) &&
        decide (duration_to_seconds (r.duration.getD []) ≤ shorts_threshold))
  else true

/-- `YouTubeService._filter_by_time_and_form`, with the time threshold
`datetime.now().astimezone() - timedelta(days=timeframe_days)` passed in as
`threshold_dt` (the only way the impure `now()` enters). -/
def filter_by_time_and_form (rows : List AnalyzeRow) (threshold_dt : Int)
    (form : List Char) (shorts_threshold : Int) : List AnalyzeRow :=
  rows.filter
    (fun r => !(timeDropped threshold_dt r) && formKeeps form shorts_threshold r)

/-- C6 counterexample: a row whose duration `"abc"` cannot be parsed is still
form-classified — `_duration_to_seconds` falls back to 0 seconds, making the
row short-form — and is dropped by the `form='long'` filter; only a **null**
duration skips form classification (the `"v2"` row survives). -/
theorem unparsable_duration_form_filtered_cx :
    duration_to_seconds ("abc".data) = 0 ∧
      filter_by_time_and_form
          [⟨"v1".data, some 0, some ("abc".data)⟩, ⟨"v2".data, some 0, Option.none⟩]
          (-1) ("long".data) 180 =
        [⟨"v2".data, some 0, Option.none⟩] := by
  refine ⟨by decide, by decide⟩

/-- C6 (amended): in the time-and-form filtering step, the rows that skip
form classification are exactly those with a **null** duration (they pass any
form filter), plus everything when `form='both'`; every row with a non-null
duration — parsable or not — is classified short-form iff its parsed
duration-in-seconds (0 for an unparsable string) is ≤ the shorts threshold,
and is kept iff that class matches the requested form. -/
theorem form_filter_spec (rows : List AnalyzeRow) (threshold_dt : Int)
    (form : List Char) (shorts_threshold : Int) (r : AnalyzeRow) (hr : r ∈ rows)
    (ht : timeDropped threshold_dt r = false) :
    (r.duration = Option.none →
      r ∈ filter_by_time_and_form rows threshold_dt form shorts_threshold) ∧
    (form = "both".data →
      r ∈ filter_by_time_and_form rows threshold_dt form shorts_threshold) ∧
    (∀ d, r.duration = some d →
      (r ∈ filter_by_time_and_form rows threshold_dt form shorts_threshold ↔
        form = "both".data ∨
          ((form = "shorts".data → duration_to_seconds d ≤ shorts_threshold) ∧
            (form = "long".data → shorts_threshold < duration_to_seconds d)))) := by
  have hiff : r ∈ filter_by_time_and_form rows threshold_dt form shorts_threshold ↔
      formKeeps form shorts_threshold r = true := by
    unfold filter_by_time_and_form
    rw [List.mem_filter]
    constructor
    · rintro ⟨_, hp⟩
      rw [Bool.and_eq_true] at hp
      exact hp.2
    · intro hp
      exact ⟨hr, by rw [Bool.and_eq_true, ht]; exact ⟨rfl, hp⟩⟩
  refine ⟨fun hd => ?_, fun hb => ?_, fun d hd => ?_⟩
  · rw [hiff]
    unfold formKeeps
    rw [hd, if_neg (by simp)]
  · rw [hiff]
    unfold formKeeps
    rw [if_neg (by simp [hb])]
  · rw [hiff]
    unfold formKeeps
    rw [hd]
    by_cases hb : form = "both".data
    · rw [if_neg (by simp [hb])]
      simp [hb]
    · rw [if_pos ⟨hb, by simp⟩]
      simp only [Option.getD_some, Bool.and_eq_true, Bool.not_eq_true',
        Bool.and_eq_false_iff, Bool.not_eq_false', decide_eq_true_eq,
        decide_eq_false_iff_not, not_le]
      constructor
      · rintro ⟨h1, h2⟩
        refine Or.inr ⟨fun hsh => ?_, fun hlg => ?_⟩
        · rcases h1 with h | h
          · exact absurd hsh h
          · exact h
        · rcases h2 with h | h
          · exact absurd hlg h
          · exact h
      · rintro (h | ⟨h1, h2⟩)
        · exact absurd h hb
        · constructor
          · by_cases hsh : form = "shorts".data
            · exact Or.inr (h1 hsh)
            · exact Or.inl hsh
          · by_cases hlg : form = "long".data
            · exact Or.inr (h2 hlg)
            · exact Or.inl hlg

/-- Witness for `form_filter_spec`: the `duration = None` row of the
counterexample scenario survives the `form='long'` filter. -/
theorem form_filter_spec_witness :
    (⟨"v2".data, some 0, Option.none⟩ : AnalyzeRow) ∈
      filter_by_time_and_form
        [⟨"v1".data, some 0, some ("abc".data)⟩, ⟨"v2".data, some 0, Option.none⟩]
        (-1) ("long".data) 180 :=
  (form_filter_spec
    [⟨"v1".data, some 0, some ("abc".data)⟩, ⟨"v2".data, some 0, Option.none⟩]
    (-1) ("long".data) 180 ⟨"v2".data, some 0, Option.none⟩
    (by decide) (by decide)).1 rfl

end TrendSearch
